import Mathlib

/-!
Verification of the LRU cache implementations of the repository:
`src/c++/LRUCache.cpp` (hash map + doubly linked list with sentinel nodes)
and `src/typescript/lruCache.ts` (insertion-ordered `Map`).

Both caches are embedded shallowly.  The C++ cache is the pair of an
`unordered_map<int, Node*>` and a doubly linked list of nodes; the map keys
are exactly the node keys and each key occurs at most once, so the state is
determined by the capacity together with the list of `(key, value)` pairs
read from `head` to `tail` (most recently used first).  The TypeScript cache
is a native `Map`, i.e. a finite map with unique keys enumerated in insertion
order; it is embedded as the capacity together with the list of
`(key, value)` entries from oldest to newest insertion.
-/

set_option autoImplicit false

namespace LRU

/-- A call on the cache interface: `get(k)` or `put(k, v)`.
Keys and values are `int` in the C++ source; we use `Int`. -/
inductive Op where
  | get (k : Int)
  | put (k : Int) (v : Int)
deriving DecidableEq, Repr

/-- `l.any (·.1 == k)`: whether an entry list holds key `k`
(`cache.find(key) != cache.end()` in C++, `this.cache.has(key)` in TS). -/
def listHasKey (l : List (Int × Int)) (k : Int) : Bool :=
  l.any (fun p => p.1 == k)

/-- The value stored for key `k`, if any (first entry with that key;
in every reachable state keys are unique, so "first" is "the"). -/
def listLookup (l : List (Int × Int)) (k : Int) : Option Int :=
  (l.find? (fun p => p.1 == k)).map (fun p => p.2)

/-- Remove the entry of key `k`.  The C++ `removeNode` unlinks the single
node the map associates to `k`, and TS `Map.delete` removes the single
entry of `k`; with unique keys both coincide with filtering `k` out. -/
def listRemoveKey (l : List (Int × Int)) (k : Int) : List (Int × Int) :=
  l.filter (fun p => p.1 != k)

/-- The keys of an entry list, in order. -/
def keysOf (l : List (Int × Int)) : List Int :=
  l.map Prod.fst

/-- An `int` value converted to `size_t` (64-bit unsigned), as happens
implicitly in the comparison `cache.size() > capacity` of `LRUCache::put`:
a negative capacity wraps around to a value near `2^64`. -/
def toSizeT (c : Int) : Nat :=
  (c % (2 : Int) ^ 64).toNat

/-- State of the C++ `LRUCache`: the constructor-supplied capacity and the
linked-list contents from `head->next` to `tail->prev`, most recently used
first.  The `cache` hash map is the key-to-node index of `list`. -/
structure CppCache where
  capacity : Int
  list : List (Int × Int)
deriving DecidableEq, Repr

/-- `LRUCache(capacity)`: dummy head and tail are linked, the map is empty.
The constructor performs no validation of `capacity`. -/
def cppMk (c : Int) : CppCache :=
  ⟨c, []⟩

/-- `LRUCache::get`: if the key is absent return `-1`; otherwise move the
node to the head (`moveToHead`) and return its value. -/
def cppGet (s : CppCache) (k : Int) : Int × CppCache :=
  match listLookup s.list k with
  | none => (-1, s)
  | some v => (v, ⟨s.capacity, (k, v) :: listRemoveKey s.list k⟩)

/-- `LRUCache::put`: if the key is resident, overwrite the node's value and
`moveToHead`; otherwise link a new node at the head, and if
`cache.size() > capacity` (a `size_t` comparison) pop the tail node and
erase its key from the map. -/
def cppPut (s : CppCache) (k : Int) (v : Int) : CppCache :=
  if listHasKey s.list k then
    ⟨s.capacity, (k, v) :: listRemoveKey s.list k⟩
  else
    let l := (k, v) :: s.list
    if l.length > toSizeT s.capacity then
      ⟨s.capacity, l.dropLast⟩
    else
      ⟨s.capacity, l⟩

/-- Run a list of operations on a C++ cache, collecting every `get` result. -/
def cppRun (s : CppCache) : List Op → CppCache × List Int
  | [] => (s, [])
  | Op.get k :: ops =>
    let r := cppGet s k
    let rest := cppRun r.2 ops
    (rest.1, r.1 :: rest.2)
  | Op.put k v :: ops => cppRun (cppPut s k v) ops

/-- JS `Map.set`: overwrite in place when the key is present (its position
in the insertion order is kept), otherwise append a new entry at the end. -/
def mapSet (l : List (Int × Int)) (k : Int) (v : Int) : List (Int × Int) :=
  if listHasKey l k then
    l.map (fun p => if p.1 == k then (k, v) else p)
  else
    l ++ [(k, v)]

/-- State of the TypeScript `LRUCache<K, V>` at `K = V = Int`: the
constructor-supplied capacity and the `Map` entries, oldest first. -/
structure TsCache where
  capacity : Int
  cache : List (Int × Int)
deriving DecidableEq, Repr

/-- `new LRUCache(capacity)`: empty map, no validation of `capacity`. -/
def tsMk (c : Int) : TsCache :=
  ⟨c, []⟩

/-- `this.cache.keys().next().value`: the first (oldest) key of the map,
or `undefined` when the map is empty. -/
def tsOldestKey (l : List (Int × Int)) : Option Int :=
  l.head?.map Prod.fst

/-- TS `get`: on a miss return `undefined`; on a hit read the value, delete
the entry and re-insert it (so it becomes newest), then return the value. -/
def tsGet (s : TsCache) (k : Int) : Option Int × TsCache :=
  match listLookup s.cache k with
  | none => (none, s)
  | some v => (some v, ⟨s.capacity, mapSet (listRemoveKey s.cache k) k v⟩)

/-- TS `put`: if the key is present delete it; else if
`this.cache.size >= this.capacity` delete the oldest key — when the map is
empty `keys().next().value` is `undefined` and the delete is a no-op.
Finally `set(key, value)`. -/
def tsPut (s : TsCache) (k : Int) (v : Int) : TsCache :=
  let c1 :=
    if listHasKey s.cache k then
      listRemoveKey s.cache k
    else if (s.cache.length : Int) ≥ s.capacity then
      match tsOldestKey s.cache with
      | some ok => listRemoveKey s.cache ok
      | none => s.cache
    else
      s.cache
  ⟨s.capacity, mapSet c1 k v⟩

/-- Run a list of operations on a TS cache, collecting every `get` result. -/
def tsRun (s : TsCache) : List Op → TsCache × List (Option Int)
  | [] => (s, [])
  | Op.get k :: ops =>
    let r := tsGet s k
    let rest := tsRun r.2 ops
    (rest.1, r.1 :: rest.2)
  | Op.put k v :: ops => tsRun (tsPut s k v) ops

/-- Identify the TS miss result `undefined` with the C++ sentinel `-1`. -/
def obsTs : Option Int → Int
  | none => -1
  | some v => v

/-- Apply a list of `(key, value)` pairs as `put` calls, C++ side. -/
def cppPutAll (s : CppCache) (kvs : List (Int × Int)) : CppCache :=
  kvs.foldl (fun t p => cppPut t p.1 p.2) s

/-- Apply a list of `(key, value)` pairs as `put` calls, TS side. -/
def tsPutAll (s : TsCache) (kvs : List (Int × Int)) : TsCache :=
  kvs.foldl (fun t p => tsPut t p.1 p.2) s

/-! ### Basic lemmas about the entry-list primitives -/

theorem listHasKey_nil (k : Int) : listHasKey [] k = false := rfl

theorem listHasKey_cons (p : Int × Int) (t : List (Int × Int)) (k : Int) :
    listHasKey (p :: t) k = (p.1 == k || listHasKey t k) := by
  simp [listHasKey]

theorem listLookup_nil (k : Int) : listLookup [] k = none := rfl

theorem listLookup_cons (p : Int × Int) (t : List (Int × Int)) (k : Int) :
    listLookup (p :: t) k = if p.1 = k then some p.2 else listLookup t k := by
  by_cases hp : p.1 = k <;> simp [listLookup, List.find?_cons, hp]

theorem listRemoveKey_nil (k : Int) : listRemoveKey [] k = [] := rfl

theorem listRemoveKey_cons (p : Int × Int) (t : List (Int × Int)) (k : Int) :
    listRemoveKey (p :: t) k =
      if p.1 = k then listRemoveKey t k else p :: listRemoveKey t k := by
  by_cases hp : p.1 = k <;> simp [listRemoveKey, List.filter_cons, hp]

theorem listHasKey_append (l₁ l₂ : List (Int × Int)) (k : Int) :
    listHasKey (l₁ ++ l₂) k = (listHasKey l₁ k || listHasKey l₂ k) := by
  simp [listHasKey]

theorem listLookup_append (l₁ l₂ : List (Int × Int)) (k : Int) :
    listLookup (l₁ ++ l₂) k =
      ((listLookup l₁ k).or (listLookup l₂ k)) := by
  rcases h : listLookup l₁ k with _ | v
  · induction l₁ with
    | nil => simp [listLookup]
    | cons p t ih =>
      rw [listLookup_cons] at h
      by_cases hp : p.1 = k
      · simp [hp] at h
      · rw [if_neg hp] at h
        simpa [List.cons_append, listLookup_cons, hp] using ih h
  · induction l₁ with
    | nil => simp [listLookup] at h
    | cons p t ih =>
      rw [listLookup_cons] at h
      by_cases hp : p.1 = k
      · rw [if_pos hp] at h
        simp [List.cons_append, listLookup_cons, hp, h]
      · rw [if_neg hp] at h
        simpa [List.cons_append, listLookup_cons, hp] using ih h

theorem listHasKey_eq_false_iff {l : List (Int × Int)} {k : Int} :
    listHasKey l k = false ↔ ∀ p ∈ l, p.1 ≠ k := by
  simp [listHasKey]

theorem listLookup_eq_none_of_not_has {l : List (Int × Int)} {k : Int}
    (h : listHasKey l k = false) : listLookup l k = none := by
  induction l with
  | nil => rfl
  | cons p t ih =>
    rw [listHasKey_cons, Bool.or_eq_false_iff] at h
    rw [listLookup_cons, if_neg (by simpa using h.1)]
    exact ih h.2

theorem listHasKey_of_lookup_some {l : List (Int × Int)} {k v : Int}
    (h : listLookup l k = some v) : listHasKey l k = true := by
  by_contra hc
  rw [listLookup_eq_none_of_not_has (Bool.eq_false_iff.mpr hc)] at h
  exact Option.noConfusion h

theorem lookup_some_of_has {l : List (Int × Int)} {k : Int}
    (h : listHasKey l k = true) : ∃ v, listLookup l k = some v := by
  induction l with
  | nil => simp [listHasKey] at h
  | cons p t ih =>
    by_cases hp : p.1 = k
    · exact ⟨p.2, by simp [listLookup_cons, hp]⟩
    · have ht : listHasKey t k = true := by
        simpa [listHasKey_cons, hp] using h
      obtain ⟨v, hv⟩ := ih ht
      exact ⟨v, by simpa [listLookup_cons, hp] using hv⟩

theorem listHasKey_removeKey_self (l : List (Int × Int)) (k : Int) :
    listHasKey (listRemoveKey l k) k = false := by
  induction l with
  | nil => rfl
  | cons p t ih =>
    rw [listRemoveKey_cons]
    by_cases hp : p.1 = k
    · rwa [if_pos hp]
    · rw [if_neg hp, listHasKey_cons, ih]
      simpa using hp

theorem listHasKey_removeKey_ne {l : List (Int × Int)} {k k' : Int} (h : k' ≠ k) :
    listHasKey (listRemoveKey l k) k' = listHasKey l k' := by
  induction l with
  | nil => rfl
  | cons p t ih =>
    rw [listRemoveKey_cons]
    by_cases hp : p.1 = k
    · rw [if_pos hp, ih, listHasKey_cons,
        show (p.1 == k') = false by simp [hp]; exact fun hc => h hc.symm]
      simp
    · rw [if_neg hp, listHasKey_cons, listHasKey_cons, ih]

theorem listLookup_removeKey_ne {l : List (Int × Int)} {k k' : Int} (h : k' ≠ k) :
    listLookup (listRemoveKey l k) k' = listLookup l k' := by
  induction l with
  | nil => rfl
  | cons p t ih =>
    rw [listRemoveKey_cons]
    by_cases hp : p.1 = k
    · rw [if_pos hp, ih, listLookup_cons,
        if_neg (show ¬ p.1 = k' by intro hc; exact h (by rw [← hc, hp]))]
    · rw [if_neg hp, listLookup_cons, listLookup_cons, ih]

theorem removeKey_of_not_has {l : List (Int × Int)} {k : Int}
    (h : listHasKey l k = false) : listRemoveKey l k = l := by
  induction l with
  | nil => rfl
  | cons p t ih =>
    rw [listHasKey_cons, Bool.or_eq_false_iff] at h
    rw [listRemoveKey_cons, if_neg (by simpa using h.1), ih h.2]

theorem length_removeKey_le (l : List (Int × Int)) (k : Int) :
    (listRemoveKey l k).length ≤ l.length :=
  List.length_filter_le _ _

theorem length_removeKey_lt {l : List (Int × Int)} {k : Int}
    (h : listHasKey l k = true) : (listRemoveKey l k).length < l.length := by
  induction l with
  | nil => simp [listHasKey] at h
  | cons p t ih =>
    rw [listRemoveKey_cons]
    by_cases hp : p.1 = k
    · rw [if_pos hp]
      exact Nat.lt_succ_of_le (length_removeKey_le t k)
    · have ht : listHasKey t k = true := by simpa [listHasKey_cons, hp] using h
      rw [if_neg hp]
      exact Nat.succ_lt_succ (ih ht)

theorem keysOf_cons (p : Int × Int) (t : List (Int × Int)) :
    keysOf (p :: t) = p.1 :: keysOf t := rfl

theorem keysOf_append (l₁ l₂ : List (Int × Int)) :
    keysOf (l₁ ++ l₂) = keysOf l₁ ++ keysOf l₂ := by
  simp [keysOf]

theorem keysOf_reverse (l : List (Int × Int)) :
    keysOf l.reverse = (keysOf l).reverse := by
  simp [keysOf]

theorem mem_keysOf_iff {l : List (Int × Int)} {k : Int} :
    k ∈ keysOf l ↔ listHasKey l k = true := by
  induction l with
  | nil => simp [keysOf, listHasKey]
  | cons p t ih =>
    rw [keysOf_cons, listHasKey_cons, List.mem_cons]
    constructor
    · rintro (h | h)
      · simp [h]
      · simp [ih.mp h]
    · intro h
      rcases Bool.or_eq_true_iff.mp h with h | h
      · exact Or.inl (Eq.symm (by simpa using h))
      · exact Or.inr (ih.mpr h)

theorem not_mem_keys_removeKey (l : List (Int × Int)) (k : Int) :
    k ∉ keysOf (listRemoveKey l k) := by
  rw [mem_keysOf_iff, listHasKey_removeKey_self]
  simp

theorem nodup_keys_removeKey {l : List (Int × Int)} (k : Int)
    (hnd : (keysOf l).Nodup) : (keysOf (listRemoveKey l k)).Nodup := by
  induction l with
  | nil => simp [listRemoveKey, keysOf]
  | cons p t ih =>
    rw [keysOf_cons, List.nodup_cons] at hnd
    rw [listRemoveKey_cons]
    by_cases hp : p.1 = k
    · rw [if_pos hp]
      exact ih hnd.2
    · rw [if_neg hp, keysOf_cons, List.nodup_cons]
      refine ⟨fun hm => hnd.1 ?_, ih hnd.2⟩
      rw [mem_keysOf_iff] at hm ⊢
      by_cases hpk : p.1 = k
      · exact absurd hpk hp
      · rwa [listHasKey_removeKey_ne hpk] at hm

theorem length_removeKey_nodup {l : List (Int × Int)} {k : Int}
    (hnd : (keysOf l).Nodup) (h : listHasKey l k = true) :
    (listRemoveKey l k).length + 1 = l.length := by
  induction l with
  | nil => simp [listHasKey] at h
  | cons p t ih =>
    rw [keysOf_cons, List.nodup_cons] at hnd
    rw [listRemoveKey_cons]
    by_cases hp : p.1 = k
    · have ht : listHasKey t k = false := by
        have hk : k ∉ keysOf t := hp ▸ hnd.1
        rw [mem_keysOf_iff] at hk
        exact Bool.eq_false_iff.mpr hk
      rw [if_pos hp, removeKey_of_not_has ht]
      rfl
    · have ht : listHasKey t k = true := by simpa [listHasKey_cons, hp] using h
      rw [if_neg hp]
      simpa using congrArg Nat.succ (ih hnd.2 ht)

theorem listRemoveKey_reverse (l : List (Int × Int)) (k : Int) :
    listRemoveKey l.reverse k = (listRemoveKey l k).reverse := by
  simp [listRemoveKey, List.filter_reverse]

theorem listHasKey_reverse (l : List (Int × Int)) (k : Int) :
    listHasKey l.reverse k = listHasKey l k := by
  simp [listHasKey]

theorem listLookup_reverse_nodup {l : List (Int × Int)} (k : Int)
    (hnd : (keysOf l).Nodup) : listLookup l.reverse k = listLookup l k := by
  induction l with
  | nil => rfl
  | cons p t ih =>
    rw [keysOf_cons, List.nodup_cons] at hnd
    rw [List.reverse_cons, listLookup_append, listLookup_cons, ih hnd.2]
    by_cases hp : p.1 = k
    · have ht : listHasKey t k = false := by
        have hk : k ∉ keysOf t := hp ▸ hnd.1
        rw [mem_keysOf_iff] at hk
        exact Bool.eq_false_iff.mpr hk
      rw [if_pos hp, listLookup_eq_none_of_not_has ht, Option.none_or,
        listLookup_cons, if_pos hp]
    · rw [if_neg hp, listLookup_cons, if_neg hp, listLookup_nil, Option.or_none]


/-! ### Unfolding lemmas for the cache operations -/

theorem cppGet_miss {s : CppCache} {k : Int} (h : listHasKey s.list k = false) :
    cppGet s k = (-1, s) := by
  simp [cppGet, listLookup_eq_none_of_not_has h]

theorem cppGet_hit {s : CppCache} {k v : Int} (h : listLookup s.list k = some v) :
    cppGet s k = (v, ⟨s.capacity, (k, v) :: listRemoveKey s.list k⟩) := by
  simp [cppGet, h]

theorem cppPut_resident {s : CppCache} {k : Int} (v : Int)
    (h : listHasKey s.list k = true) :
    cppPut s k v = ⟨s.capacity, (k, v) :: listRemoveKey s.list k⟩ := by
  simp [cppPut, h]

theorem cppPut_new_evict {s : CppCache} {k : Int} (v : Int)
    (h : listHasKey s.list k = false) (hlen : s.list.length + 1 > toSizeT s.capacity) :
    cppPut s k v = ⟨s.capacity, ((k, v) :: s.list).dropLast⟩ := by
  simp only [cppPut, h, Bool.false_eq_true, if_false]
  rw [if_pos (by simpa using hlen)]

theorem cppPut_new_noevict {s : CppCache} {k : Int} (v : Int)
    (h : listHasKey s.list k = false) (hlen : s.list.length + 1 ≤ toSizeT s.capacity) :
    cppPut s k v = ⟨s.capacity, (k, v) :: s.list⟩ := by
  simp only [cppPut, h, Bool.false_eq_true, if_false]
  rw [if_neg (by simpa using Nat.not_lt.mpr hlen)]

theorem mapSet_of_not_has {l : List (Int × Int)} {k : Int} (v : Int)
    (h : listHasKey l k = false) : mapSet l k v = l ++ [(k, v)] := by
  simp [mapSet, h]

theorem tsGet_miss {s : TsCache} {k : Int} (h : listHasKey s.cache k = false) :
    tsGet s k = (none, s) := by
  simp [tsGet, listLookup_eq_none_of_not_has h]

theorem tsGet_hit {s : TsCache} {k v : Int} (h : listLookup s.cache k = some v) :
    tsGet s k = (some v, ⟨s.capacity, listRemoveKey s.cache k ++ [(k, v)]⟩) := by
  simp [tsGet, h, mapSet_of_not_has v (listHasKey_removeKey_self s.cache k)]

theorem tsPut_resident {s : TsCache} {k : Int} (v : Int)
    (h : listHasKey s.cache k = true) :
    tsPut s k v = ⟨s.capacity, listRemoveKey s.cache k ++ [(k, v)]⟩ := by
  simp [tsPut, h, mapSet_of_not_has v (listHasKey_removeKey_self s.cache k)]

theorem tsPut_new_room {s : TsCache} {k : Int} (v : Int)
    (h : listHasKey s.cache k = false) (hlen : (s.cache.length : Int) < s.capacity) :
    tsPut s k v = ⟨s.capacity, s.cache ++ [(k, v)]⟩ := by
  simp only [tsPut, h, Bool.false_eq_true, if_false]
  rw [if_neg (by simpa using hlen), mapSet_of_not_has v h]

theorem tsPut_new_full {s : TsCache} {k : Int} (v : Int) {p : Int × Int}
    {t : List (Int × Int)} (hc : s.cache = p :: t)
    (h : listHasKey s.cache k = false) (hlen : (s.cache.length : Int) ≥ s.capacity) :
    tsPut s k v = ⟨s.capacity, listRemoveKey s.cache p.1 ++ [(k, v)]⟩ := by
  have hok : tsOldestKey s.cache = some p.1 := by simp [tsOldestKey, hc]
  have hkr : listHasKey (listRemoveKey s.cache p.1) k = false := by
    by_cases hke : k = p.1
    · rw [hke]
      exact listHasKey_removeKey_self _ _
    · rw [listHasKey_removeKey_ne hke]
      exact h
  simp only [tsPut, h, Bool.false_eq_true, if_false]
  rw [if_pos (by simpa using hlen), hok, mapSet_of_not_has v hkr]

theorem tsPut_new_full_empty {s : TsCache} {k : Int} (v : Int) (hc : s.cache = [])
    (hlen : (s.cache.length : Int) ≥ s.capacity) :
    tsPut s k v = ⟨s.capacity, [(k, v)]⟩ := by
  have h : listHasKey s.cache k = false := by rw [hc]; rfl
  have hok : tsOldestKey s.cache = none := by simp [tsOldestKey, hc]
  simp only [tsPut, h, Bool.false_eq_true, if_false]
  rw [if_pos (by simpa using hlen), hok, mapSet_of_not_has v h, hc]
  rfl

/-! ### Facts about the `int` to `size_t` conversion -/

theorem toSizeT_of_nonneg {c : Int} (h0 : 0 ≤ c) (h1 : c < 2 ^ 63) :
    toSizeT c = c.toNat := by
  unfold toSizeT
  rw [Int.emod_eq_of_lt h0 (lt_trans h1 (by norm_num))]

theorem toSizeT_of_neg {c : Int} (h0 : -2 ^ 31 ≤ c) (h1 : c < 0) :
    toSizeT c = (c + 2 ^ 64).toNat := by
  unfold toSizeT
  omega

theorem toSizeT_neg_large {c : Int} (h0 : -2 ^ 31 ≤ c) (h1 : c < 0) :
    2 ^ 32 < toSizeT c := by
  unfold toSizeT
  omega

/-! ### Capacity invariant -/

/-- Invariant for the C++ cache: fixed capacity and size within it. -/
def CppInv (c : Int) (s : CppCache) : Prop :=
  s.capacity = c ∧ s.list.length ≤ c.toNat

/-- Invariant for the TS cache: fixed capacity and size within it. -/
def TsInv (c : Int) (t : TsCache) : Prop :=
  t.capacity = c ∧ t.cache.length ≤ c.toNat

theorem cppGet_inv {c : Int} {s : CppCache} (k : Int) (h : CppInv c s) :
    CppInv c (cppGet s k).2 := by
  rcases hl : listLookup s.list k with _ | v
  · have hk : listHasKey s.list k = false := by
      cases hkk : listHasKey s.list k
      · rfl
      · obtain ⟨w, hw⟩ := lookup_some_of_has hkk
        rw [hl] at hw
        exact Option.noConfusion hw
    rw [cppGet_miss hk]
    exact h
  · rw [cppGet_hit hl]
    refine ⟨h.1, ?_⟩
    have := length_removeKey_lt (listHasKey_of_lookup_some hl)
    have hle := h.2
    simp only [List.length_cons]
    omega

theorem cppPut_inv {c : Int} {s : CppCache} (k v : Int) (h0 : 0 ≤ c) (h1 : c < 2 ^ 31)
    (h : CppInv c s) : CppInv c (cppPut s k v) := by
  have hts : toSizeT s.capacity = c.toNat := by
    rw [h.1]
    exact toSizeT_of_nonneg h0 (by linarith)
  cases hk : listHasKey s.list k
  · by_cases hlen : s.list.length + 1 > toSizeT s.capacity
    · rw [cppPut_new_evict v hk hlen]
      refine ⟨h.1, ?_⟩
      have := h.2
      simp only [List.length_dropLast, List.length_cons]
      omega
    · rw [cppPut_new_noevict v hk (Nat.not_lt.mp hlen)]
      refine ⟨h.1, ?_⟩
      rw [hts] at hlen
      simp only [List.length_cons]
      omega
  · rw [cppPut_resident v hk]
    refine ⟨h.1, ?_⟩
    have := length_removeKey_lt hk
    have hle := h.2
    simp only [List.length_cons]
    omega

theorem cppRun_inv {c : Int} (ops : List Op) (s : CppCache) (h0 : 0 ≤ c)
    (h1 : c < 2 ^ 31) (h : CppInv c s) : CppInv c (cppRun s ops).1 := by
  induction ops generalizing s with
  | nil => exact h
  | cons op rest ih =>
    cases op with
    | get k => exact ih _ (cppGet_inv k h)
    | put k v => exact ih _ (cppPut_inv k v h0 h1 h)

theorem tsGet_inv {c : Int} {t : TsCache} (k : Int) (h : TsInv c t) :
    TsInv c (tsGet t k).2 := by
  rcases hl : listLookup t.cache k with _ | v
  · cases hk : listHasKey t.cache k
    · rw [tsGet_miss hk]
      exact h
    · obtain ⟨w, hw⟩ := lookup_some_of_has hk
      rw [hl] at hw
      exact Option.noConfusion hw
  · rw [tsGet_hit hl]
    refine ⟨h.1, ?_⟩
    have := length_removeKey_lt (listHasKey_of_lookup_some hl)
    have hle := h.2
    simp only [List.length_append, List.length_cons, List.length_nil]
    omega

theorem tsPut_inv {c : Int} {t : TsCache} (k v : Int) (h1 : 1 ≤ c)
    (h : TsInv c t) : TsInv c (tsPut t k v) := by
  cases hk : listHasKey t.cache k
  · by_cases hlen : (t.cache.length : Int) ≥ t.capacity
    · rcases hc : t.cache with _ | ⟨p, rest⟩
      · exfalso
        rw [hc] at hlen
        simp only [List.length_nil, Nat.cast_zero] at hlen
        rw [h.1] at hlen
        omega
      · rw [tsPut_new_full v hc hk hlen]
        refine ⟨h.1, ?_⟩
        have hhead : listHasKey t.cache p.1 = true := by
          rw [hc, listHasKey_cons]
          simp
        have := length_removeKey_lt hhead
        have hle := h.2
        simp only [List.length_append, List.length_cons, List.length_nil]
        omega
    · rw [tsPut_new_room v hk (by omega)]
      refine ⟨h.1, ?_⟩
      rw [h.1] at hlen
      have hle := h.2
      simp only [List.length_append, List.length_cons, List.length_nil]
      omega
  · rw [tsPut_resident v hk]
    refine ⟨h.1, ?_⟩
    have := length_removeKey_lt hk
    have hle := h.2
    simp only [List.length_append, List.length_cons, List.length_nil]
    omega

theorem tsRun_inv {c : Int} (ops : List Op) (t : TsCache) (h1 : 1 ≤ c)
    (h : TsInv c t) : TsInv c (tsRun t ops).1 := by
  induction ops generalizing t with
  | nil => exact h
  | cons op rest ih =>
    cases op with
    | get k => exact ih _ (tsGet_inv k h)
    | put k v => exact ih _ (tsPut_inv k v h1 h)

/-! ### Claim theorems -/

/-- C1 (counterexample): as stated the capacity invariant fails on the
TypeScript implementation at capacity `c = 0`: a single `put` on a fresh
zero-capacity cache leaves one resident key, exceeding the capacity. -/
theorem ts_zero_capacity_size_exceeds :
    ¬ ((tsPut (tsMk 0) 0 0).cache.length ≤ (0 : Int).toNat) := by decide

/-- C1 (amended): after any sequence of `get`/`put` calls on a fresh cache,
the number of resident entries is at most the capacity — for the C++
implementation for every `int` capacity `c ≥ 0`, and for the TypeScript
implementation for every capacity `c ≥ 1` (at `c = 0` TS retains one entry). -/
theorem capacity_invariant (c : Int) (ops : List Op) :
    (0 ≤ c → c < 2 ^ 31 → (cppRun (cppMk c) ops).1.list.length ≤ c.toNat)
    ∧ (1 ≤ c → (tsRun (tsMk c) ops).1.cache.length ≤ c.toNat) := by
  constructor
  · intro h0 h1
    exact (cppRun_inv ops (cppMk c) h0 h1 ⟨rfl, by simp [cppMk]⟩).2
  · intro h1
    exact (tsRun_inv ops (tsMk c) h1 ⟨rfl, by simp [tsMk]⟩).2

/-- Witness for `capacity_invariant` at capacity 2 and a concrete workload. -/
theorem capacity_invariant_witness :
    (cppRun (cppMk 2) [Op.put 1 1, Op.put 2 2, Op.get 1, Op.put 3 3]).1.list.length
      ≤ (2 : Int).toNat
    ∧ (tsRun (tsMk 2) [Op.put 1 1, Op.put 2 2, Op.get 1, Op.put 3 3]).1.cache.length
      ≤ (2 : Int).toNat :=
  ⟨(capacity_invariant 2 [Op.put 1 1, Op.put 2 2, Op.get 1, Op.put 3 3]).1
      (by decide) (by decide),
   (capacity_invariant 2 [Op.put 1 1, Op.put 2 2, Op.get 1, Op.put 3 3]).2 (by decide)⟩

/-- C2 (code bug): on the TypeScript implementation a zero-capacity cache
admits an entry: `put(0,0)` on a fresh capacity-0 cache leaves `(0,0)`
resident and a following `get(0)` returns it — because `keys().next().value`
on the empty map is `undefined` and deleting it removes nothing.  The C++
implementation at the same input complies with the claim (it stays empty). -/
theorem ts_zero_capacity_admits_entry :
    (tsPut (tsMk 0) 0 0).cache = [(0, 0)]
    ∧ (tsGet (tsPut (tsMk 0) 0 0) 0).1 = some 0
    ∧ (cppPut (cppMk 0) 0 0).list = [] := by decide

/-- C3: the repository test-vector scenario on the C++ cache with capacity 2:
after `put(1,1); put(2,2); get(1); put(3,3)` the resident entries are
`{3, 1}` (key 2 was evicted, key 1 survived thanks to the `get(1)`
promotion), and the full nine-call sequence returns `1, -1, -1, 3, 4` on its
`get` calls; the TypeScript implementation agrees on the whole trace. -/
theorem eviction_order_scenario :
    (cppRun (cppMk 2) [Op.put 1 1, Op.put 2 2, Op.get 1, Op.put 3 3]).1.list
      = [(3, 3), (1, 1)]
    ∧ (cppRun (cppMk 2) [Op.put 1 1, Op.put 2 2, Op.get 1, Op.put 3 3, Op.get 2,
        Op.put 4 4, Op.get 1, Op.get 3, Op.get 4]).2 = [1, -1, -1, 3, 4]
    ∧ ((tsRun (tsMk 2) [Op.put 1 1, Op.put 2 2, Op.get 1, Op.put 3 3, Op.get 2,
        Op.put 4 4, Op.get 1, Op.get 3, Op.get 4]).2.map obsTs) = [1, -1, -1, 3, 4] := by
  decide

/-- C4 (counterexample): constructing with the negative capacity `-1` does
not fail — neither constructor validates its argument — and the resulting
caches are usable: a `put` admits an entry and a `get` returns it, in both
implementations. -/
theorem negative_capacity_usable_cex :
    (cppGet (cppPut (cppMk (-1)) 1 1) 1).1 = 1
    ∧ (tsGet (tsPut (tsMk (-1)) 1 1) 1).1 = some 1 := by decide

/-- C4 (amended): construction with any negative `int` capacity succeeds in
both implementations (there is no validation and no `InvalidArgument`
anywhere in either source), and the resulting instances are usable: a `put`
admits an entry and a subsequent `get` returns its value.  No operation of
either implementation can fail. -/
theorem negative_capacity_accepted (c k v : Int) (hc : c < 0) (hc2 : -2 ^ 31 ≤ c) :
    (cppGet (cppPut (cppMk c) k v) k).1 = v
    ∧ (tsGet (tsPut (tsMk c) k v) k).1 = some v := by
  constructor
  · have hk : listHasKey (cppMk c).list k = false := rfl
    have hlen : (cppMk c).list.length + 1 ≤ toSizeT (cppMk c).capacity := by
      have := toSizeT_neg_large hc2 hc
      simp only [cppMk, List.length_nil]
      omega
    rw [cppPut_new_noevict v hk hlen]
    simp only [cppMk]
    have hlk : listLookup ({ capacity := c, list := [(k, v)] } : CppCache).list k
        = some v := by
      rw [listLookup_cons]
      simp
    rw [cppGet_hit hlk]
  · have hlen : (((tsMk c).cache.length : Int)) ≥ (tsMk c).capacity := by
      simp only [tsMk, List.length_nil, Nat.cast_zero]
      omega
    rw [tsPut_new_full_empty v rfl hlen]
    simp only [tsMk]
    have hlk : listLookup ({ capacity := c, cache := [(k, v)] } : TsCache).cache k
        = some v := by
      rw [listLookup_cons]
      simp
    rw [tsGet_hit hlk]

/-- Witness for `negative_capacity_accepted` at capacity `-1`. -/
theorem negative_capacity_accepted_witness :
    (cppGet (cppPut (cppMk (-7)) 2 9) 2).1 = 9
    ∧ (tsGet (tsPut (tsMk (-7)) 2 9) 2).1 = some 9 :=
  negative_capacity_accepted (-7) 2 9 (by decide) (by decide)

/-- C5: `get` of a non-resident key returns the miss result (`-1` in C++,
`undefined` in TS) and leaves the whole cache state — resident keys, values
and recency order — unchanged, in both implementations; hence repeated such
calls keep returning the same miss result. -/
theorem get_absent_no_effect (s : CppCache) (t : TsCache) (k : Int)
    (hs : listHasKey s.list k = false) (ht : listHasKey t.cache k = false) :
    cppGet s k = (-1, s) ∧ tsGet t k = (none, t) :=
  ⟨cppGet_miss hs, tsGet_miss ht⟩

/-- Witness for `get_absent_no_effect` on populated caches and key 5. -/
theorem get_absent_no_effect_witness :
    cppGet ⟨2, [(1, 10), (2, 20)]⟩ 5 = (-1, ⟨2, [(1, 10), (2, 20)]⟩)
    ∧ tsGet ⟨2, [(1, 10), (2, 20)]⟩ 5 = (none, ⟨2, [(1, 10), (2, 20)]⟩) :=
  get_absent_no_effect ⟨2, [(1, 10), (2, 20)]⟩ ⟨2, [(1, 10), (2, 20)]⟩ 5
    (by decide) (by decide)

/-- C8: in the C++ implementation with a negative `int` capacity, `put` of a
non-resident key never evicts: `cache.size() > capacity` promotes the
negative capacity to a `size_t` near `2^64`, so (for any reachable size —
`int` keys allow at most `2^32` entries) the check fails and the new node is
simply linked in: the resident count grows by one, without bound. -/
theorem negative_capacity_never_evicts (s : CppCache) (k v : Int)
    (hc : s.capacity < 0) (hc2 : -2 ^ 31 ≤ s.capacity)
    (hk : listHasKey s.list k = false) (hlen : s.list.length < 2 ^ 32) :
    (cppPut s k v).list = (k, v) :: s.list
    ∧ (cppPut s k v).list.length = s.list.length + 1 := by
  have h := toSizeT_neg_large hc2 hc
  have hle : s.list.length + 1 ≤ toSizeT s.capacity := by omega
  rw [cppPut_new_noevict v hk hle]
  exact ⟨rfl, rfl⟩

/-- Witness for `negative_capacity_never_evicts`: capacity `-1`, one
resident entry, a second `put` grows the cache to two entries. -/
theorem negative_capacity_never_evicts_witness :
    (cppPut ⟨-1, [(1, 1)]⟩ 2 2).list = [(2, 2), (1, 1)]
    ∧ (cppPut ⟨-1, [(1, 1)]⟩ 2 2).list.length = 2 :=
  negative_capacity_never_evicts ⟨-1, [(1, 1)]⟩ 2 2 (by decide) (by decide)
    (by decide) (by decide)

/-- C10: in the C++ implementation the stored value `-1` is
indistinguishable from a miss: after `put(5, -1)` on a fresh capacity-2
cache, `get(5)` (a hit on a resident key) and `get(7)` (a key never
inserted) both return exactly `-1`. -/
theorem value_neg_one_indistinguishable :
    (cppGet (cppPut (cppMk 2) 5 (-1)) 5).1 = -1
    ∧ (cppGet (cppPut (cppMk 2) 5 (-1)) 7).1 = -1
    ∧ listHasKey (cppPut (cppMk 2) 5 (-1)).list 5 = true
    ∧ listHasKey (cppPut (cppMk 2) 5 (-1)).list 7 = false := by decide

/-! ### Run unfolding and preservation lemmas -/

theorem cppRun_nil (s : CppCache) : cppRun s [] = (s, []) := rfl

theorem cppRun_get (s : CppCache) (k : Int) (ops : List Op) :
    cppRun s (Op.get k :: ops) =
      ((cppRun (cppGet s k).2 ops).1, (cppGet s k).1 :: (cppRun (cppGet s k).2 ops).2) :=
  rfl

theorem cppRun_put (s : CppCache) (k v : Int) (ops : List Op) :
    cppRun s (Op.put k v :: ops) = cppRun (cppPut s k v) ops := rfl

theorem tsRun_nil (t : TsCache) : tsRun t [] = (t, []) := rfl

theorem tsRun_get (t : TsCache) (k : Int) (ops : List Op) :
    tsRun t (Op.get k :: ops) =
      ((tsRun (tsGet t k).2 ops).1, (tsGet t k).1 :: (tsRun (tsGet t k).2 ops).2) :=
  rfl

theorem tsRun_put (t : TsCache) (k v : Int) (ops : List Op) :
    tsRun t (Op.put k v :: ops) = tsRun (tsPut t k v) ops := rfl

theorem cppPut_capacity (s : CppCache) (k v : Int) :
    (cppPut s k v).capacity = s.capacity := by
  cases hk : listHasKey s.list k
  · by_cases hlen : s.list.length + 1 > toSizeT s.capacity
    · rw [cppPut_new_evict v hk hlen]
    · rw [cppPut_new_noevict v hk (Nat.not_lt.mp hlen)]
  · rw [cppPut_resident v hk]

theorem tsPut_capacity (t : TsCache) (k v : Int) :
    (tsPut t k v).capacity = t.capacity := rfl

theorem not_has_of_lookup_none {l : List (Int × Int)} {k : Int}
    (h : listLookup l k = none) : listHasKey l k = false := by
  cases hk : listHasKey l k
  · rfl
  · obtain ⟨v, hv⟩ := lookup_some_of_has hk
    rw [h] at hv
    exact Option.noConfusion hv

theorem lookup_of_mem_nodup {l : List (Int × Int)} {k v : Int}
    (hnd : (keysOf l).Nodup) (hm : (k, v) ∈ l) : listLookup l k = some v := by
  induction l with
  | nil => cases hm
  | cons p t ih =>
    rw [keysOf_cons, List.nodup_cons] at hnd
    rcases List.mem_cons.mp hm with h | h
    · rw [← h, listLookup_cons, if_pos rfl]
    · have hkt : k ∈ keysOf t := List.mem_map_of_mem Prod.fst h
      have hpk : ¬ p.1 = k := fun he => hnd.1 (he ▸ hkt)
      rw [listLookup_cons, if_neg hpk]
      exact ih hnd.2 h

theorem nodup_keys_snoc {l : List (Int × Int)} {k : Int} (v : Int)
    (hnd : (keysOf l).Nodup) (hk : listHasKey l k = false) :
    (keysOf (l ++ [(k, v)])).Nodup := by
  rw [keysOf_append]
  refine List.Nodup.append hnd (List.nodup_singleton k) ?_
  intro a ha hb
  rw [show keysOf [(k, v)] = [k] from rfl, List.mem_singleton] at hb
  rw [hb, mem_keysOf_iff, hk] at ha
  exact Bool.noConfusion ha

/-- The reordering a C++ `get` hit performs does not change any lookup. -/
theorem cpp_get_lookup_preserved {l : List (Int × Int)} {k v : Int}
    (h : listLookup l k = some v) (q : Int) :
    listLookup ((k, v) :: listRemoveKey l k) q = listLookup l q := by
  rw [listLookup_cons]
  by_cases hk : k = q
  · rw [if_pos hk]
    subst hk
    exact h.symm
  · rw [if_neg hk, listLookup_removeKey_ne (fun hh => hk hh.symm)]

/-- The reordering a TS `get` hit performs does not change any lookup. -/
theorem ts_get_lookup_preserved {l : List (Int × Int)} {k v : Int}
    (h : listLookup l k = some v) (q : Int) :
    listLookup (listRemoveKey l k ++ [(k, v)]) q = listLookup l q := by
  rw [listLookup_append]
  by_cases hk : q = k
  · subst hk
    rw [listLookup_eq_none_of_not_has (listHasKey_removeKey_self l q), Option.none_or,
      listLookup_cons, if_pos rfl]
    exact h.symm
  · rw [listLookup_removeKey_ne hk, listLookup_cons,
      if_neg (fun hh => hk hh.symm), listLookup_nil, Option.or_none]

/-- A block of `get` calls on keys the C++ cache holds returns their values. -/
theorem cppRun_gets (qs : List (Int × Int)) : ∀ (s : CppCache),
    (∀ p ∈ qs, listLookup s.list p.1 = some p.2) →
    (cppRun s (qs.map (fun p => Op.get p.1))).2 = qs.map Prod.snd := by
  induction qs with
  | nil =>
    intro s _h
    rfl
  | cons q rest ih =>
    intro s h
    have hq := h q (List.mem_cons_self q rest)
    simp only [List.map_cons, cppRun_get]
    rw [cppGet_hit hq]
    refine congrArg (fun x => q.2 :: x) (ih _ ?_)
    intro p hp
    exact (cpp_get_lookup_preserved hq p.1).trans (h p (List.mem_cons_of_mem _ hp))

/-- A block of `get` calls on keys the TS cache holds returns their values. -/
theorem tsRun_gets (qs : List (Int × Int)) : ∀ (t : TsCache),
    (∀ p ∈ qs, listLookup t.cache p.1 = some p.2) →
    (tsRun t (qs.map (fun p => Op.get p.1))).2 = qs.map (fun p => some p.2) := by
  induction qs with
  | nil =>
    intro t _h
    rfl
  | cons q rest ih =>
    intro t h
    have hq := h q (List.mem_cons_self q rest)
    simp only [List.map_cons, tsRun_get]
    rw [tsGet_hit hq]
    refine congrArg (fun x => some q.2 :: x) (ih _ ?_)
    intro p hp
    exact (ts_get_lookup_preserved hq p.1).trans (h p (List.mem_cons_of_mem _ hp))

theorem cppPutAll_nil (s : CppCache) : cppPutAll s [] = s := rfl

theorem cppPutAll_cons (s : CppCache) (q : Int × Int) (rest : List (Int × Int)) :
    cppPutAll s (q :: rest) = cppPutAll (cppPut s q.1 q.2) rest := rfl

theorem tsPutAll_nil (t : TsCache) : tsPutAll t [] = t := rfl

theorem tsPutAll_cons (t : TsCache) (q : Int × Int) (rest : List (Int × Int)) :
    tsPutAll t (q :: rest) = tsPutAll (tsPut t q.1 q.2) rest := rfl

/-- Filling a C++ cache with fresh, distinct keys while room remains just
stacks the new nodes at the head. -/
theorem cppPutAll_fresh (kvs : List (Int × Int)) : ∀ (s : CppCache),
    (∀ p ∈ kvs, listHasKey s.list p.1 = false) →
    (keysOf kvs).Nodup →
    s.list.length + kvs.length ≤ toSizeT s.capacity →
    (cppPutAll s kvs).list = kvs.reverse ++ s.list
    ∧ (cppPutAll s kvs).capacity = s.capacity := by
  induction kvs with
  | nil =>
    intro s _ _ _
    exact ⟨(List.nil_append s.list).symm, rfl⟩
  | cons q rest ih =>
    intro s hfresh hnd hroom
    rw [keysOf_cons, List.nodup_cons] at hnd
    have hq := hfresh q (List.mem_cons_self q rest)
    have hno : s.list.length + 1 ≤ toSizeT s.capacity := by
      simp only [List.length_cons] at hroom
      omega
    rw [cppPutAll_cons, cppPut_new_noevict q.2 hq hno]
    have hfresh2 : ∀ p ∈ rest,
        listHasKey ((⟨s.capacity, (q.1, q.2) :: s.list⟩ : CppCache)).list p.1 = false := by
      intro p hp
      have hne : (q.1 == p.1) = false := by
        have : p.1 ∈ keysOf rest := List.mem_map_of_mem Prod.fst hp
        simp only [beq_eq_false_iff_ne, ne_eq]
        exact fun he => hnd.1 (he ▸ this)
      simp only [listHasKey_cons, hne, Bool.false_or]
      exact hfresh p (List.mem_cons_of_mem _ hp)
    have hroom2 : ((⟨s.capacity, (q.1, q.2) :: s.list⟩ : CppCache)).list.length + rest.length
        ≤ toSizeT ((⟨s.capacity, (q.1, q.2) :: s.list⟩ : CppCache)).capacity := by
      simp only [List.length_cons]
      simp only [List.length_cons] at hroom
      omega
    obtain ⟨hl, hc⟩ := ih _ hfresh2 hnd.2 hroom2
    refine ⟨?_, hc⟩
    rw [hl, List.reverse_cons, List.append_assoc]
    rfl

/-- Filling a TS cache with fresh, distinct keys while room remains just
appends the new entries in order. -/
theorem tsPutAll_fresh (kvs : List (Int × Int)) : ∀ (t : TsCache),
    (∀ p ∈ kvs, listHasKey t.cache p.1 = false) →
    (keysOf kvs).Nodup →
    (t.cache.length + kvs.length : Int) ≤ t.capacity →
    (tsPutAll t kvs).cache = t.cache ++ kvs
    ∧ (tsPutAll t kvs).capacity = t.capacity := by
  induction kvs with
  | nil =>
    intro t _ _ _
    exact ⟨(List.append_nil t.cache).symm, rfl⟩
  | cons q rest ih =>
    intro t hfresh hnd hroom
    rw [keysOf_cons, List.nodup_cons] at hnd
    have hq := hfresh q (List.mem_cons_self q rest)
    have hlt : (t.cache.length : Int) < t.capacity := by
      simp only [List.length_cons] at hroom
      push_cast at hroom ⊢
      omega
    rw [tsPutAll_cons, tsPut_new_room q.2 hq hlt]
    have hfresh2 : ∀ p ∈ rest,
        listHasKey ((⟨t.capacity, t.cache ++ [(q.1, q.2)]⟩ : TsCache)).cache p.1 = false := by
      intro p hp
      have hne : (q.1 == p.1) = false := by
        have : p.1 ∈ keysOf rest := List.mem_map_of_mem Prod.fst hp
        simp only [beq_eq_false_iff_ne, ne_eq]
        exact fun he => hnd.1 (he ▸ this)
      simp only [listHasKey_append, listHasKey_cons, listHasKey_nil, hne,
        Bool.or_false, Bool.false_or]
      exact hfresh p (List.mem_cons_of_mem _ hp)
    have hroom2 : (((⟨t.capacity, t.cache ++ [(q.1, q.2)]⟩ : TsCache)).cache.length
        + rest.length : Int) ≤ ((⟨t.capacity, t.cache ++ [(q.1, q.2)]⟩ : TsCache)).capacity := by
      simp only [List.length_append, List.length_cons, List.length_nil]
      simp only [List.length_cons] at hroom
      push_cast at hroom ⊢
      omega
    obtain ⟨hl, hc⟩ := ih _ hfresh2 hnd.2 hroom2
    refine ⟨?_, hc⟩
    rw [hl, List.append_assoc]
    rfl

/-- C6: `put` on an already-resident key, in either implementation,
overwrites the value, moves the key to the most-recently-used position
(the head of the C++ list, the newest `Map` slot in TS), triggers no
eviction — the resident key set and the size are unchanged — and a
subsequent `get` of the key returns the new value. -/
theorem put_resident_update_no_evict (s : CppCache) (t : TsCache) (k v : Int)
    (hs : listHasKey s.list k = true) (hnds : (keysOf s.list).Nodup)
    (ht : listHasKey t.cache k = true) (hndt : (keysOf t.cache).Nodup) :
    (cppPut s k v).list.length = s.list.length
    ∧ (∀ q, listHasKey (cppPut s k v).list q = listHasKey s.list q)
    ∧ (cppGet (cppPut s k v) k).1 = v
    ∧ (cppPut s k v).list.head? = some (k, v)
    ∧ (tsPut t k v).cache.length = t.cache.length
    ∧ (∀ q, listHasKey (tsPut t k v).cache q = listHasKey t.cache q)
    ∧ (tsGet (tsPut t k v) k).1 = some v
    ∧ (tsPut t k v).cache.getLast? = some (k, v) := by
  rw [cppPut_resident v hs, tsPut_resident v ht]
  have hlkc : listLookup ((k, v) :: listRemoveKey s.list k) k = some v := by
    rw [listLookup_cons, if_pos rfl]
  have hlkt : listLookup (listRemoveKey t.cache k ++ [(k, v)]) k = some v := by
    rw [listLookup_append,
      listLookup_eq_none_of_not_has (listHasKey_removeKey_self t.cache k),
      Option.none_or, listLookup_cons, if_pos rfl]
  refine ⟨?_, ?_, ?_, rfl, ?_, ?_, ?_, ?_⟩
  · simp only [List.length_cons]
    have := length_removeKey_nodup hnds hs
    omega
  · intro q
    by_cases hq : q = k
    · subst hq
      rw [listHasKey_cons, hs]
      simp
    · rw [listHasKey_cons, listHasKey_removeKey_ne hq]
      have hne : ((k, v).1 == q) = false := by
        simp only [beq_eq_false_iff_ne, ne_eq]
        exact fun he => hq he.symm
      rw [hne, Bool.false_or]
  · rw [cppGet_hit hlkc]
  · simp only [List.length_append, List.length_cons, List.length_nil]
    have := length_removeKey_nodup hndt ht
    omega
  · intro q
    by_cases hq : q = k
    · subst hq
      rw [listHasKey_append, ht, listHasKey_cons]
      simp
    · rw [listHasKey_append, listHasKey_removeKey_ne hq]
      have hne : ((k, v).1 == q) = false := by
        simp only [beq_eq_false_iff_ne, ne_eq]
        exact fun he => hq he.symm
      rw [listHasKey_cons, hne, listHasKey_nil, Bool.or_false, Bool.or_false]
  · rw [tsGet_hit hlkt]
  · exact List.getLast?_concat _

/-- Witness for `put_resident_update_no_evict` on caches holding keys 1, 2
with `put(2, 9)`. -/
theorem put_resident_update_no_evict_witness :
    (cppPut ⟨2, [(1, 1), (2, 2)]⟩ 2 9).list.length
      = ((⟨2, [(1, 1), (2, 2)]⟩ : CppCache)).list.length
    ∧ listHasKey (cppPut ⟨2, [(1, 1), (2, 2)]⟩ 2 9).list 1
      = listHasKey ((⟨2, [(1, 1), (2, 2)]⟩ : CppCache)).list 1
    ∧ (cppGet (cppPut ⟨2, [(1, 1), (2, 2)]⟩ 2 9) 2).1 = 9
    ∧ (tsPut ⟨2, [(1, 1), (2, 2)]⟩ 2 9).cache.length
      = ((⟨2, [(1, 1), (2, 2)]⟩ : TsCache)).cache.length
    ∧ (tsGet (tsPut ⟨2, [(1, 1), (2, 2)]⟩ 2 9) 2).1 = some 9 := by
  have h := put_resident_update_no_evict ⟨2, [(1, 1), (2, 2)]⟩ ⟨2, [(1, 1), (2, 2)]⟩ 2 9
    (by decide) (by decide) (by decide) (by decide)
  exact ⟨h.1, h.2.1 1, h.2.2.1, h.2.2.2.2.1, h.2.2.2.2.2.2.1⟩

/-- C7: filling a fresh cache with `N ≤ capacity` distinct keys and then
reading them all back: every `get(ki)` in the subsequent block of reads
succeeds and returns the value last written, in both implementations. -/
theorem recency_correctness (c : Int) (kvs : List (Int × Int))
    (hnd : (keysOf kvs).Nodup) (hlen : (kvs.length : Int) ≤ c) (hc : c < 2 ^ 31) :
    (cppRun (cppPutAll (cppMk c) kvs) (kvs.map (fun p => Op.get p.1))).2
      = kvs.map Prod.snd
    ∧ (tsRun (tsPutAll (tsMk c) kvs) (kvs.map (fun p => Op.get p.1))).2
      = kvs.map (fun p => some p.2) := by
  have h0 : 0 ≤ c := le_trans (Int.ofNat_nonneg kvs.length) hlen
  constructor
  · have hfill := cppPutAll_fresh kvs (cppMk c) (fun p _ => rfl) hnd (by
      have hts : toSizeT (cppMk c).capacity = c.toNat :=
        toSizeT_of_nonneg h0 (show c < 2 ^ 63 by linarith)
      rw [hts]
      simp only [cppMk, List.length_nil]
      omega)
    apply cppRun_gets
    intro p hp
    rw [hfill.1]
    have hrevnd : (keysOf kvs.reverse).Nodup := by
      rw [keysOf_reverse]
      exact List.nodup_reverse.mpr hnd
    have hmem : (p.1, p.2) ∈ kvs.reverse ++ (cppMk c).list := by
      simp only [cppMk, List.append_nil, List.mem_reverse]
      exact hp
    have : (keysOf (kvs.reverse ++ (cppMk c).list)).Nodup := by
      simpa only [cppMk, List.append_nil] using hrevnd
    exact lookup_of_mem_nodup this hmem
  · have hfill := tsPutAll_fresh kvs (tsMk c) (fun p _ => rfl) hnd (by
      simp only [tsMk, List.length_nil]
      push_cast
      omega)
    apply tsRun_gets
    intro p hp
    rw [hfill.1]
    have hmem : (p.1, p.2) ∈ (tsMk c).cache ++ kvs := by
      simp only [tsMk, List.nil_append]
      exact hp
    have : (keysOf ((tsMk c).cache ++ kvs)).Nodup := by
      simpa only [tsMk, List.nil_append] using hnd
    exact lookup_of_mem_nodup this hmem

/-- Witness for `recency_correctness`: capacity 3, puts of `(1,10), (2,20)`,
then `get(1), get(2)` return `10, 20`. -/
theorem recency_correctness_witness :
    (cppRun (cppPutAll (cppMk 3) [(1, 10), (2, 20)])
        ([(1, 10), (2, 20)].map (fun p => Op.get p.1))).2
      = ([(1, 10), (2, 20)] : List (Int × Int)).map Prod.snd
    ∧ (tsRun (tsPutAll (tsMk 3) [(1, 10), (2, 20)])
        ([(1, 10), (2, 20)].map (fun p => Op.get p.1))).2
      = ([(1, 10), (2, 20)] : List (Int × Int)).map (fun p => some p.2) :=
  recency_correctness 3 [(1, 10), (2, 20)] (by decide) (by decide) (by decide)

/-! ### Observational equivalence of the two implementations -/

/-- Simulation relation: both caches carry the same capacity `c`, the TS
insertion order read newest-first is exactly the C++ list read from the
head (most recently used first), and the keys are distinct. -/
def Rel (c : Int) (t : TsCache) (s : CppCache) : Prop :=
  t.capacity = c ∧ s.capacity = c ∧ t.cache.reverse = s.list ∧ (keysOf t.cache).Nodup

theorem rel_get {c : Int} {t : TsCache} {s : CppCache} (k : Int) (h : Rel c t s) :
    obsTs (tsGet t k).1 = (cppGet s k).1 ∧ Rel c (tsGet t k).2 (cppGet s k).2 := by
  obtain ⟨hct, hcs, hrev, hnd⟩ := h
  have hlook : listLookup s.list k = listLookup t.cache k := by
    rw [← hrev, listLookup_reverse_nodup k hnd]
  rcases hl : listLookup t.cache k with _ | v
  · have hkt : listHasKey t.cache k = false := not_has_of_lookup_none hl
    have hks : listHasKey s.list k = false := by
      rw [← hrev, listHasKey_reverse]
      exact hkt
    rw [tsGet_miss hkt, cppGet_miss hks]
    exact ⟨rfl, hct, hcs, hrev, hnd⟩
  · have hls : listLookup s.list k = some v := by rw [hlook, hl]
    rw [tsGet_hit hl, cppGet_hit hls]
    refine ⟨rfl, hct, hcs, ?_, ?_⟩
    · show (listRemoveKey t.cache k ++ [(k, v)]).reverse = (k, v) :: listRemoveKey s.list k
      rw [List.reverse_append, ← hrev, listRemoveKey_reverse]
      rfl
    · exact nodup_keys_snoc v (nodup_keys_removeKey k hnd)
        (listHasKey_removeKey_self t.cache k)

theorem rel_put {c : Int} {t : TsCache} {s : CppCache} (k v : Int) (h1 : 1 ≤ c)
    (h2 : c < 2 ^ 31) (h : Rel c t s) : Rel c (tsPut t k v) (cppPut s k v) := by
  obtain ⟨hct, hcs, hrev, hnd⟩ := h
  have hkeq : listHasKey s.list k = listHasKey t.cache k := by
    rw [← hrev, listHasKey_reverse]
  have hts : toSizeT s.capacity = c.toNat := by
    rw [hcs]
    exact toSizeT_of_nonneg (by omega) (by linarith)
  have hlen_eq : s.list.length = t.cache.length := by
    rw [← hrev, List.length_reverse]
  cases hk : listHasKey t.cache k
  · have hks : listHasKey s.list k = false := by rw [hkeq, hk]
    by_cases hfull : (t.cache.length : Int) ≥ t.capacity
    · rcases hcch : t.cache with _ | ⟨p, rest⟩
      · exfalso
        rw [hcch] at hfull
        simp only [List.length_nil, Nat.cast_zero] at hfull
        rw [hct] at hfull
        omega
      · rw [tsPut_new_full v hcch hk hfull]
        have hevict : s.list.length + 1 > toSizeT s.capacity := by
          rw [hts, hlen_eq]
          have hge : (t.cache.length : Int) ≥ c := by rw [← hct]; exact hfull
          omega
        rw [cppPut_new_evict v hks hevict]
        rw [hcch, keysOf_cons, List.nodup_cons] at hnd
        have hprest : listHasKey rest p.1 = false := by
          cases hpr : listHasKey rest p.1
          · rfl
          · exact absurd (mem_keysOf_iff.mpr hpr) hnd.1
        have hrm : listRemoveKey t.cache p.1 = rest := by
          rw [hcch, listRemoveKey_cons, if_pos rfl, removeKey_of_not_has hprest]
        have hkrest : listHasKey rest k = false := by
          have := hk
          rw [hcch, listHasKey_cons, Bool.or_eq_false_iff] at this
          exact this.2
        refine ⟨hct, hcs, ?_, ?_⟩
        · show (listRemoveKey t.cache p.1 ++ [(k, v)]).reverse
            = ((k, v) :: s.list).dropLast
          rw [hrm, ← hrev, hcch, List.reverse_cons,
            show (k, v) :: (rest.reverse ++ [p]) = ((k, v) :: rest.reverse) ++ [p] from rfl,
            List.dropLast_concat, List.reverse_append]
          simp
        · rw [hrm]
          exact nodup_keys_snoc v hnd.2 hkrest
    · have hroom : (t.cache.length : Int) < t.capacity := lt_of_not_ge hfull
      rw [tsPut_new_room v hk hroom]
      have hnoevict : s.list.length + 1 ≤ toSizeT s.capacity := by
        rw [hts, hlen_eq]
        have hlt : (t.cache.length : Int) < c := by rw [← hct]; exact hroom
        omega
      rw [cppPut_new_noevict v hks hnoevict]
      refine ⟨hct, hcs, ?_, nodup_keys_snoc v hnd hk⟩
      show (t.cache ++ [(k, v)]).reverse = (k, v) :: s.list
      rw [List.reverse_append, ← hrev]
      rfl
  · have hks : listHasKey s.list k = true := by rw [hkeq, hk]
    rw [tsPut_resident v hk, cppPut_resident v hks]
    refine ⟨hct, hcs, ?_, ?_⟩
    · show (listRemoveKey t.cache k ++ [(k, v)]).reverse = (k, v) :: listRemoveKey s.list k
      rw [List.reverse_append, ← hrev, listRemoveKey_reverse]
      rfl
    · exact nodup_keys_snoc v (nodup_keys_removeKey k hnd)
        (listHasKey_removeKey_self t.cache k)

theorem rel_run {c : Int} (ops : List Op) : ∀ (t : TsCache) (s : CppCache),
    1 ≤ c → c < 2 ^ 31 → Rel c t s →
    Rel c (tsRun t ops).1 (cppRun s ops).1
    ∧ (tsRun t ops).2.map obsTs = (cppRun s ops).2 := by
  induction ops with
  | nil =>
    intro t s _ _ h
    exact ⟨h, rfl⟩
  | cons op rest ih =>
    intro t s h1 h2 h
    cases op with
    | get k =>
      have hg := rel_get k h
      obtain ⟨hrel, htr⟩ := ih _ _ h1 h2 hg.2
      rw [tsRun_get, cppRun_get]
      simp only [List.map_cons]
      exact ⟨hrel, by rw [hg.1, htr]⟩
    | put k v =>
      rw [tsRun_put, cppRun_put]
      exact ih _ _ h1 h2 (rel_put k v h1 h2 h)

/-- C9: for every capacity `c ≥ 1` (in `int` range) and every operation
sequence, the TypeScript `Map` implementation and the C++ linked-list
implementation agree observably: the runs from fresh caches hold the same
resident key set (the statement quantifies over all sequences, hence over
every prefix), and the `get` traces coincide once the TS miss `undefined`
is identified with the C++ sentinel `-1`. -/
theorem cpp_ts_observational_equiv (c : Int) (ops : List Op) (h1 : 1 ≤ c)
    (h2 : c < 2 ^ 31) :
    (∀ k, listHasKey (tsRun (tsMk c) ops).1.cache k
        = listHasKey (cppRun (cppMk c) ops).1.list k)
    ∧ (tsRun (tsMk c) ops).2.map obsTs = (cppRun (cppMk c) ops).2 := by
  have h := rel_run ops (tsMk c) (cppMk c) h1 h2 ⟨rfl, rfl, rfl, List.nodup_nil⟩
  refine ⟨fun k => ?_, h.2⟩
  rw [← h.1.2.2.1, listHasKey_reverse]

/-- Witness for `cpp_ts_observational_equiv` on the capacity-2 test vector,
sampling the resident set at key 3. -/
theorem cpp_ts_observational_equiv_witness :
    listHasKey (tsRun (tsMk 2) [Op.put 1 1, Op.put 2 2, Op.get 1, Op.put 3 3, Op.get 2,
        Op.put 4 4, Op.get 1, Op.get 3, Op.get 4]).1.cache 3
      = listHasKey (cppRun (cppMk 2) [Op.put 1 1, Op.put 2 2, Op.get 1, Op.put 3 3,
        Op.get 2, Op.put 4 4, Op.get 1, Op.get 3, Op.get 4]).1.list 3
    ∧ (tsRun (tsMk 2) [Op.put 1 1, Op.put 2 2, Op.get 1, Op.put 3 3, Op.get 2,
        Op.put 4 4, Op.get 1, Op.get 3, Op.get 4]).2.map obsTs
      = (cppRun (cppMk 2) [Op.put 1 1, Op.put 2 2, Op.get 1, Op.put 3 3, Op.get 2,
        Op.put 4 4, Op.get 1, Op.get 3, Op.get 4]).2 := by
  have h := cpp_ts_observational_equiv 2 [Op.put 1 1, Op.put 2 2, Op.get 1, Op.put 3 3,
    Op.get 2, Op.put 4 4, Op.get 1, Op.get 3, Op.get 4] (by decide) (by decide)
  exact ⟨h.1 3, h.2⟩

end LRU
